import Mathlib

/-!
# volta: volatile access primitives and the circular audio sample buffer

A shallow embedding of `volta/volta.h` and `examples/audio.cc`.

* Machine integers are mathematical integers; a cell of integral type `T`
  holds a value of `T`, so a store converts the stored value into the range
  of `T` (`IntegralType.convert`), and `size_t` arithmetic is reduced
  modulo `2 ^ 64` explicitly.
* Memory is a map from pointer values to typed cells.  Dereferencing a pointer
  that designates no live cell of the accessed type (a null pointer, a pointer
  past the array) is undefined behaviour and is modelled by `none`, as is
  a remainder by zero.
* Every access of the abstract machine is appended to a trace, tagged volatile
  or ordinary, so that the order of accesses can be stated.
-/

namespace volta

/-- The widths of the fixed-width integer types. -/
inductive Width
  | w8
  | w16
  | w32
  | w64
  deriving DecidableEq

/-- Number of bits of a width. -/
def Width.bits : Width → Nat
  | .w8 => 8
  | .w16 => 16
  | .w32 => 32
  | .w64 => 64

/-- The types accepted by `static_assert(std::is_integral<T>::value)`:
booleans and the signed and unsigned fixed-width integers. -/
inductive IntegralType
  | bool
  | sint (w : Width)
  | uint (w : Width)
  deriving DecidableEq

/-- The values of an integral type. -/
def IntegralType.representable : IntegralType → Int → Prop
  | .bool, v => v = 0 ∨ v = 1
  | .sint w, v => -(2 ^ (w.bits - 1)) ≤ v ∧ v < 2 ^ (w.bits - 1)
  | .uint w, v => 0 ≤ v ∧ v < 2 ^ w.bits

instance (T : IntegralType) (v : Int) : Decidable (T.representable v) := by
  cases T <;> unfold IntegralType.representable <;> infer_instance

/-- Integral conversion to `T`: the value a cell of type `T` holds after
an integer is assigned to it (two's complement wrap-around; any non-zero
value converts to `true`). -/
def IntegralType.convert : IntegralType → Int → Int
  | .bool, v => if v = 0 then 0 else 1
  | .sint w, v => (v + 2 ^ (w.bits - 1)) % 2 ^ w.bits - 2 ^ (w.bits - 1)
  | .uint w, v => v % 2 ^ w.bits

/-- One access of the abstract machine to the cell designated by `p`;
the flag says whether the access is volatile, `v` is the value read or
stored. -/
inductive Access (P : Type)
  | read (isVolatile : Bool) (p : P) (v : Int)
  | write (isVolatile : Bool) (p : P) (v : Int)
  deriving DecidableEq

/-- Memory: the live cells, each with its type and current value, indexed
by pointer value, and the accesses performed so far (oldest first). -/
structure Memory (P : Type) where
  cells : P → Option (IntegralType × Int)
  trace : List (Access P)

/-- Current value of the cell designated by `p`, if there is one
(an observation of the state, not an access). -/
def Memory.value {P : Type} (m : Memory P) (p : P) : Option Int :=
  (m.cells p).map Prod.snd

/-- The lvalue-to-rvalue conversion `*source` through a `T const*`. -/
def Memory.load {P : Type} (m : Memory P) (isVolatile : Bool) (T : IntegralType)
    (source : P) : Option (Int × Memory P) :=
  match m.cells source with
  | some (U, v) =>
    if U = T then
      some (v, { cells := m.cells, trace := m.trace ++ [Access.read isVolatile source v] })
    else none
  | none => none

/-- The assignment `*dest = value` through a `T*`. -/
def Memory.store {P : Type} [DecidableEq P] (m : Memory P) (isVolatile : Bool)
    (T : IntegralType) (dest : P) (value : Int) : Option (Memory P) :=
  match m.cells dest with
  | some (U, _) =>
    if U = T then
      some { cells := fun q => if q = dest then some (T, T.convert value) else m.cells q,
             trace := m.trace ++ [Access.write isVolatile dest (T.convert value)] }
    else none
  | none => none

/-- Embeds `volatile_read`:
`return *static_cast<T volatile const*>(source);` -/
def volatile_read {P : Type} (T : IntegralType) (source : P) (m : Memory P) :
    Option (Int × Memory P) :=
  m.load true T source

/-- Embeds `volatile_write`:
`*static_cast<T volatile*>(dest) = value;` -/
def volatile_write {P : Type} [DecidableEq P] (T : IntegralType) (dest : P) (value : Int)
    (m : Memory P) : Option (Memory P) :=
  m.store true T dest value

end volta

open volta

/-- The template parameters of `AudioSamples`, with their defaults. -/
structure Params where
  Duration : Nat := 200
  SampleRate : Nat := 16
  Channels : Nat := 1

/-- Pointers into an `AudioSamples` object: the address of the position
counter `pos_`, and `audio_samples_.begin() + i`. -/
inductive Ptr
  | pos_
  | audio_samples_ (i : Int)
  deriving DecidableEq

/-- Pointer arithmetic `p + n` on a `sample_type*`. -/
def Ptr.add : Ptr → Int → Ptr
  | .pos_, _ => .pos_
  | .audio_samples_ i, n => .audio_samples_ (i + n)

namespace AudioSamples

/-- Embeds `using sample_type = int16_t;` -/
def sample_type : IntegralType := .sint .w16

/-- The type `size_t` (64 bits). -/
def size_t : IntegralType := .uint .w64

/-- Embeds `static constexpr auto size_ = SampleRate * Duration * Channels;`
computed in `size_t`. -/
def size_ (c : Params) : Nat := (c.SampleRate * c.Duration * c.Channels) % 2 ^ 64

/-- Embeds `constexpr auto sample_rate() { return SampleRate; }` -/
def sample_rate (c : Params) : Nat := c.SampleRate

/-- Embeds `constexpr auto channels() { return Channels; }` -/
def channels (c : Params) : Nat := c.Channels

/-- Embeds `constexpr auto duration() { return Duration; }` -/
def duration (c : Params) : Nat := c.Duration

/-- Embeds `constexpr auto size() { return size_; }` -/
def size (c : Params) : Nat := size_ c

/-- Embeds `constexpr AudioSamples() : pos_{0} {}`: the counter is zero and the
`size_` array elements are left uninitialised; `a i` stands for the
indeterminate content of element `i`. -/
def new (c : Params) (a : Int → Int) : Memory Ptr where
  cells := fun q =>
    match q with
    | .pos_ => some (size_t, 0)
    | .audio_samples_ i =>
      if 0 ≤ i ∧ i < (size_ c : Int) then some (sample_type, sample_type.convert (a i)) else none
  trace := []

/-- Embeds `constexpr sample_type* begin() { return audio_samples_.begin(); }` -/
def begin : Ptr := .audio_samples_ 0

/-- Embeds `constexpr sample_type* end() { return audio_samples_.end(); }` -/
def end_ (c : Params) : Ptr := .audio_samples_ (size_ c)

/-- Embeds `size_t& pos() { return pos_; }` -/
def pos : Ptr := .pos_

/-- Embeds `size_t volatile_pos() { return volta::volatile_read(&pos_); }` -/
def volatile_pos (self : Memory Ptr) : Option (Int × Memory Ptr) :=
  volatile_read size_t Ptr.pos_ self

/-- Embeds `volatile_push`:
```
auto start_pos = volta::volatile_read(&pos_);
volta::volatile_write(begin() + start_pos, sample);
volta::volatile_write(&pos_, (start_pos + 1UL) % size());
```
-/
def volatile_push (c : Params) (self : Memory Ptr) (sample : Int) : Option (Memory Ptr) :=
  match volatile_read size_t Ptr.pos_ self with
  | none => none
  | some (start_pos, m1) =>
    match volatile_write sample_type (begin.add start_pos) sample m1 with
    | none => none
    | some m2 =>
      if size c = 0 then none
      else volatile_write size_t Ptr.pos_ (((start_pos + 1) % 2 ^ 64) % (size c : Int)) m2

/-- Embeds `push`:
```
audio_samples_[pos_] = sample;
pos_ = (pos_ + 1UL) % size();
```
-/
def push (c : Params) (self : Memory Ptr) (sample : Int) : Option (Memory Ptr) :=
  match self.load false size_t Ptr.pos_ with
  | none => none
  | some (i, m1) =>
    match m1.store false sample_type (Ptr.audio_samples_ i) sample with
    | none => none
    | some m2 =>
      match m2.load false size_t Ptr.pos_ with
      | none => none
      | some (p, m3) =>
        if size c = 0 then none
        else m3.store false size_t Ptr.pos_ (((p + 1) % 2 ^ 64) % (size c : Int))

end AudioSamples

/-- The global `AudioSamples samples = {};` is the default instantiation
`AudioSamples<200, 16, 1>`. -/
def samples : Params := {}

/-- Embeds `AudioSampleISR_Auto`: `samples.volatile_push(sample);` -/
def AudioSampleISR_Auto (g : Memory Ptr) (sample : Int) : Option (Memory Ptr) :=
  AudioSamples.volatile_push samples g sample

/-- Embeds `AudioSampleISR_Manual`:
```
auto pos_ptr = &samples.pos();
auto pos = volta::volatile_read(pos_ptr);
volta::volatile_write(samples.begin() + pos, sample);
volta::volatile_write(pos_ptr, (pos + 1) % samples.size());
```
The `int` literal `1` is converted to `size_t` before the addition. -/
def AudioSampleISR_Manual (g : Memory Ptr) (sample : Int) : Option (Memory Ptr) :=
  let pos_ptr := AudioSamples.pos
  match volatile_read AudioSamples.size_t pos_ptr g with
  | none => none
  | some (pos, m1) =>
    match volatile_write AudioSamples.sample_type (AudioSamples.begin.add pos) sample m1 with
    | none => none
    | some m2 =>
      if AudioSamples.size samples = 0 then none
      else volatile_write AudioSamples.size_t pos_ptr
        (((pos + AudioSamples.size_t.convert 1) % 2 ^ 64) % (AudioSamples.size samples : Int)) m2

namespace AudioSamples

/-- A sequence of calls `push(v_0); ...; push(v_{k-1})`. -/
def pushes (c : Params) : Memory Ptr → List Int → Option (Memory Ptr)
  | m, [] => some m
  | m, v :: vs =>
    match push c m v with
    | none => none
    | some m1 => pushes c m1 vs

/-- The states of a buffer reachable from construction by pushes of either
kind. -/
inductive Reachable (c : Params) : Memory Ptr → Prop
  | construct (a : Int → Int) : Reachable c (new c a)
  | push {m m1 : Memory Ptr} (sample : Int) :
      Reachable c m → AudioSamples.push c m sample = some m1 → Reachable c m1
  | volatile_push {m m1 : Memory Ptr} (sample : Int) :
      Reachable c m → AudioSamples.volatile_push c m sample = some m1 → Reachable c m1

/-- The content of the array, element by element. -/
def storage (c : Params) (m : Memory Ptr) : List (Option Int) :=
  (List.range (size_ c)).map (fun (i : Nat) => m.value (Ptr.audio_samples_ (i : Int)))

/-- The object is laid out as declared: `pos_` is a `size_t` cell holding an
index below `size_`, and `audio_samples_` has exactly the elements
`0 .. size_ - 1`, each a `sample_type` cell. -/
def WellFormed (c : Params) (m : Memory Ptr) : Prop :=
  (∃ p : Nat, p < size_ c ∧ m.cells Ptr.pos_ = some (size_t, (p : Int))) ∧
  (∀ i : Int, 0 ≤ i → i < (size_ c : Int) →
    ∃ v, m.cells (Ptr.audio_samples_ i) = some (sample_type, v)) ∧
  (∀ i : Int, ¬ (0 ≤ i ∧ i < (size_ c : Int)) → m.cells (Ptr.audio_samples_ i) = none)

/-- The cells after a sample has been stored at index `p` and the counter
advanced from `p`. -/
def cellsAfter (c : Params) (m : Memory Ptr) (p : Nat) (v : Int) :
    Ptr → Option (IntegralType × Int) :=
  fun q =>
    if q = Ptr.pos_ then some (size_t, (((p + 1) % size_ c : Nat) : Int))
    else if q = Ptr.audio_samples_ (p : Int) then some (sample_type, sample_type.convert v)
    else m.cells q

/-- A buffer of capacity 4: `AudioSamples<4, 1, 1>`. -/
def capacity4 : Params := ⟨4, 1, 1⟩

/-- A buffer of capacity 3: `AudioSamples<3, 1, 1>`. -/
def capacity3 : Params := ⟨3, 1, 1⟩

/-- A sequence of pushes of either kind: `(true, v)` stands for the call
`volatile_push(v)` and `(false, v)` for the call `push(v)`. -/
def mixedPushes (c : Params) : Memory Ptr → List (Bool × Int) → Option (Memory Ptr)
  | m, [] => some m
  | m, (isVolatile, v) :: ops =>
    match (if isVolatile then volatile_push c m v else push c m v) with
    | none => none
    | some m1 => mixedPushes c m1 ops

/-- The expression that advances the counter, `(pos_ + 1UL) % size()` in
`push` and `(start_pos + 1UL) % size()` in `volatile_push`, evaluated in
`size_t` on the counter value `p`. -/
def advance (c : Params) (p : Int) : Int := ((p + 1) % 2 ^ 64) % (size c : Int)

/-- The instantiation `AudioSamples<4611686018427387905, 4, 1>`, whose
product of parameters is `2 ^ 64 + 4`. -/
def overflowing : Params := ⟨2 ^ 62 + 1, 4, 1⟩

/-- The instantiation `AudioSamples<4294967296, 4294967296, 1>`, whose
product of parameters is `2 ^ 64`. -/
def wrapsToZero : Params := ⟨2 ^ 32, 2 ^ 32, 1⟩

end AudioSamples

/-- Pointer comparison `p < q` of two `sample_type*` into the same array. -/
def Ptr.lt : Ptr → Ptr → Bool
  | .audio_samples_ i, .audio_samples_ j => decide (i < j)
  | _, _ => false

/-- Embeds `ProcessMonoFrame`, whose body is empty (`(void)frame;`).  The
frames it has been invoked with are logged, oldest first, so that its
invocations can be stated. -/
def ProcessMonoFrame (frame : Int) (calls : List Int) : List Int :=
  calls ++ [frame]

/-- Embeds the inner loop of `main`, from the iterator `iter` on:
```
for (auto iter = samples.begin(); iter < samples.end(); iter++) {
  auto mono_frame = volta::volatile_read(iter);
  ProcessMonoFrame(mono_frame);
}
```
The first argument bounds the number of evaluations of the loop condition;
`none` is returned when it is exhausted or a read is undefined. -/
def main_loop (c : Params) : Nat → Ptr → Memory Ptr → List Int →
    Option (List Int × Memory Ptr)
  | 0, _, _, _ => none
  | fuel + 1, iter, m, calls =>
    if iter.lt (AudioSamples.end_ c) then
      match volatile_read AudioSamples.sample_type iter m with
      | none => none
      | some (mono_frame, m1) =>
        main_loop c fuel (iter.add 1) m1 (ProcessMonoFrame mono_frame calls)
    else some (calls, m)

/-- One consumer pass of `main` over a buffer of configuration `c` (the
global `samples` in the source): the loop started at `begin()` with no frame
processed yet. -/
def main_pass (c : Params) (fuel : Nat) (m : Memory Ptr) : Option (List Int × Memory Ptr) :=
  main_loop c fuel AudioSamples.begin m []

/-! ## Integral conversion and counter arithmetic -/

namespace volta

theorem IntegralType.convert_of_representable (T : IntegralType) (v : Int)
    (h : T.representable v) : T.convert v = v := by
  cases T with
  | bool =>
    rcases h with h | h <;> simp [IntegralType.convert, h]
  | sint w =>
    obtain ⟨h1, h2⟩ := h
    have hb : (2 : Int) ^ w.bits = 2 ^ (w.bits - 1) + 2 ^ (w.bits - 1) := by
      cases w <;> norm_num [Width.bits]
    have hm : (v + 2 ^ (w.bits - 1)) % 2 ^ w.bits = v + 2 ^ (w.bits - 1) := by
      apply Int.emod_eq_of_lt <;> omega
    simp only [IntegralType.convert, hm]
    omega
  | uint w =>
    obtain ⟨h1, h2⟩ := h
    exact Int.emod_eq_of_lt h1 h2

end volta

namespace AudioSamples

theorem size__lt (c : Params) : size_ c < 2 ^ 64 :=
  Nat.mod_lt _ (by norm_num)

/-- The advanced counter computed in `size_t` is the mathematical
`(p + 1) mod size_` whenever `p` is an index of the array. -/
theorem advance_eq (c : Params) (p : Nat) (hp : p < size_ c) :
    (((p : Int) + 1) % 2 ^ 64) % (size c : Int) = (((p + 1) % size_ c : Nat) : Int) := by
  have hN := size__lt c
  have h1 : ((p : Int) + 1) % 2 ^ 64 = (p : Int) + 1 := by
    apply Int.emod_eq_of_lt <;> omega
  rw [h1]
  simp [size]

theorem advance_representable (c : Params) (q : Nat) (hq : q < size_ c) :
    size_t.representable (q : Int) := by
  have hN := size__lt c
  refine ⟨by omega, ?_⟩
  simp only [Width.bits]
  omega

end AudioSamples

/-! ## One push, of either kind -/

namespace AudioSamples

theorem push_eq (c : Params) (m : Memory Ptr) (v : Int) (p : Nat) (u : Int)
    (hp : p < size_ c) (hpos : m.cells Ptr.pos_ = some (size_t, (p : Int)))
    (helem : m.cells (Ptr.audio_samples_ (p : Int)) = some (sample_type, u)) :
    push c m v = some
      { cells := cellsAfter c m p v,
        trace := m.trace ++
          [Access.read false Ptr.pos_ (p : Int),
           Access.write false (Ptr.audio_samples_ (p : Int)) (sample_type.convert v),
           Access.read false Ptr.pos_ (p : Int),
           Access.write false Ptr.pos_ (((p + 1) % size_ c : Nat) : Int)] } := by
  have hs : size c ≠ 0 := by unfold size; omega
  have hq : (p + 1) % size_ c < size_ c := Nat.mod_lt _ (by omega)
  have hconv := IntegralType.convert_of_representable _ _ (advance_representable c _ hq)
  have hadv := advance_eq c p hp
  simp only [push, Memory.load, Memory.store, hpos, helem, if_true, hs, if_false, hadv, hconv,
    reduceCtorEq, List.append_assoc, List.singleton_append, List.cons_append, List.nil_append]
  congr 1

theorem volatile_push_eq (c : Params) (m : Memory Ptr) (v : Int) (p : Nat) (u : Int)
    (hp : p < size_ c) (hpos : m.cells Ptr.pos_ = some (size_t, (p : Int)))
    (helem : m.cells (Ptr.audio_samples_ (p : Int)) = some (sample_type, u)) :
    volatile_push c m v = some
      { cells := cellsAfter c m p v,
        trace := m.trace ++
          [Access.read true Ptr.pos_ (p : Int),
           Access.write true (Ptr.audio_samples_ (p : Int)) (sample_type.convert v),
           Access.write true Ptr.pos_ (((p + 1) % size_ c : Nat) : Int)] } := by
  have hs : size c ≠ 0 := by unfold size; omega
  have hq : (p + 1) % size_ c < size_ c := Nat.mod_lt _ (by omega)
  have hconv := IntegralType.convert_of_representable _ _ (advance_representable c _ hq)
  have hadv := advance_eq c p hp
  simp only [volatile_push, volatile_read, volatile_write, begin, Ptr.add, zero_add,
    Memory.load, Memory.store, hpos, helem, if_true, hs, if_false, hadv, hconv,
    reduceCtorEq, List.append_assoc, List.singleton_append, List.cons_append, List.nil_append]
  congr 1

end AudioSamples

/-! ## Well-formedness is established by construction and kept by pushes -/

namespace AudioSamples

theorem wellFormed_new (c : Params) (a : Int → Int) (h : 0 < size_ c) :
    WellFormed c (new c a) := by
  refine ⟨⟨0, h, rfl⟩, ?_, ?_⟩
  · intro i h0 h1
    exact ⟨sample_type.convert (a i), by simp [new, h0, h1]⟩
  · intro i hi
    simp [new, hi]

theorem wellFormed_after (c : Params) (m : Memory Ptr) (p : Nat) (v : Int)
    (t : List (Access Ptr)) (h : WellFormed c m) (hp : p < size_ c) :
    WellFormed c { cells := cellsAfter c m p v, trace := t } := by
  obtain ⟨_, h2, h3⟩ := h
  refine ⟨⟨(p + 1) % size_ c, Nat.mod_lt _ (by omega), by simp [cellsAfter]⟩, ?_, ?_⟩
  · intro i h0 h1
    by_cases hi : i = (p : Int)
    · exact ⟨sample_type.convert v, by simp [cellsAfter, hi]⟩
    · obtain ⟨u, hu⟩ := h2 i h0 h1
      exact ⟨u, by simp [cellsAfter, hi, hu]⟩
  · intro i hi
    have hne : i ≠ (p : Int) := by
      intro hip
      apply hi
      subst hip
      omega
    simp [cellsAfter, hne, h3 i hi]

theorem wellFormed_elem (c : Params) (m : Memory Ptr) (p : Nat) (h : WellFormed c m)
    (hp : p < size_ c) : ∃ u, m.cells (Ptr.audio_samples_ (p : Int)) = some (sample_type, u) :=
  h.2.1 (p : Int) (by omega) (by omega)

theorem wellFormed_push (c : Params) (m m1 : Memory Ptr) (v : Int) (h : WellFormed c m)
    (hm : push c m v = some m1) : WellFormed c m1 := by
  obtain ⟨p, hp, hpos⟩ := h.1
  obtain ⟨u, hu⟩ := wellFormed_elem c m p h hp
  rw [push_eq c m v p u hp hpos hu] at hm
  cases hm
  exact wellFormed_after c m p v _ h hp

theorem wellFormed_volatile_push (c : Params) (m m1 : Memory Ptr) (v : Int)
    (h : WellFormed c m) (hm : volatile_push c m v = some m1) : WellFormed c m1 := by
  obtain ⟨p, hp, hpos⟩ := h.1
  obtain ⟨u, hu⟩ := wellFormed_elem c m p h hp
  rw [volatile_push_eq c m v p u hp hpos hu] at hm
  cases hm
  exact wellFormed_after c m p v _ h hp

theorem wellFormed_of_reachable (c : Params) (m : Memory Ptr) (h : 0 < size_ c)
    (hr : Reachable c m) : WellFormed c m := by
  induction hr with
  | construct a => exact wellFormed_new c a h
  | push sample _ hm ih => exact wellFormed_push c _ _ sample ih hm
  | volatile_push sample _ hm ih => exact wellFormed_volatile_push c _ _ sample ih hm

end AudioSamples

/-! ## Sequences of pushes -/

namespace AudioSamples

theorem shift_mod (N p j : Nat) : ((p + 1) % N + j) % N = (p + (j + 1)) % N := by
  rw [Nat.mod_add_mod]
  congr 1
  omega

/-- What a sequence of pushes does to a well-formed buffer whose counter is
`p`: it succeeds, the counter advances by the number of pushes modulo the
capacity, element `(p + j) mod size_` holds the `j`-th value unless a later
push hit the same element, and the elements hit by no push are unchanged. -/
theorem pushes_spec (c : Params) (vs : List Int) :
    ∀ (m : Memory Ptr) (p : Nat), WellFormed c m → p < size_ c →
      m.cells Ptr.pos_ = some (size_t, (p : Int)) →
      ∃ m1, pushes c m vs = some m1 ∧ WellFormed c m1 ∧
        m1.cells Ptr.pos_ = some (size_t, (((p + vs.length) % size_ c : Nat) : Int)) ∧
        (∀ (j : Nat) (x : Int), vs[j]? = some x →
          (∀ j1, j < j1 → j1 < vs.length → (p + j1) % size_ c ≠ (p + j) % size_ c) →
          m1.cells (Ptr.audio_samples_ (((p + j) % size_ c : Nat) : Int)) =
            some (sample_type, sample_type.convert x)) ∧
        (∀ i : Int, (∀ j, j < vs.length → (((p + j) % size_ c : Nat) : Int) ≠ i) →
          m1.cells (Ptr.audio_samples_ i) = m.cells (Ptr.audio_samples_ i)) := by
  induction vs with
  | nil =>
    intro m p hwf hp hpos
    refine ⟨m, rfl, hwf, ?_, ?_, ?_⟩
    · simpa [Nat.mod_eq_of_lt hp] using hpos
    · intro j x hx
      simp at hx
    · intro i _
      rfl
  | cons v vs ih =>
    intro m p hwf hp hpos
    obtain ⟨u, hu⟩ := wellFormed_elem c m p hwf hp
    have hpush := push_eq c m v p u hp hpos hu
    have hp1 : (p + 1) % size_ c < size_ c := Nat.mod_lt _ (by omega)
    obtain ⟨m2, hm2, hwf2, hpos2, hhit, hmiss⟩ :=
      ih _ ((p + 1) % size_ c) (wellFormed_after c m p v _ hwf hp) hp1
        (by simp [cellsAfter])
    refine ⟨m2, ?_, hwf2, ?_, ?_, ?_⟩
    · simp only [pushes, hpush]
      exact hm2
    · rw [hpos2, shift_mod, List.length_cons]
    · intro j x hx hlast
      cases j with
      | zero =>
        simp only [List.getElem?_cons_zero, Option.some.injEq] at hx
        subst hx
        have hp0 : (p + 0) % size_ c = p := by simpa using Nat.mod_eq_of_lt hp
        rw [hp0, hmiss]
        · simp [cellsAfter]
        · intro j hj heq
          have h1 := hlast (j + 1) (by omega) (by simp; omega)
          rw [hp0] at h1
          apply h1
          rw [← shift_mod]
          exact_mod_cast heq
      | succ j =>
        simp only [List.getElem?_cons_succ] at hx
        have h1 := hhit j x hx (by
          intro j1 hj1 hlen
          rw [shift_mod, shift_mod]
          exact hlast (j1 + 1) (by omega) (by simp; omega))
        rw [shift_mod] at h1
        exact h1
    · intro i hi
      rw [hmiss]
      · have hne : i ≠ (p : Int) := by
          intro hip
          have h0 := hi 0 (by simp)
          apply h0
          rw [hip]
          simp [Nat.mod_eq_of_lt hp]
        simp [cellsAfter, hne]
      · intro j hj
        rw [shift_mod]
        exact hi (j + 1) (by simp; omega)

end AudioSamples

/-! ## Index arithmetic of the wrapped positions -/

namespace AudioSamples

/-- Two distinct indices hitting the same element are at least one full
capacity apart. -/
theorem same_elem_far (N j j1 : Nat) (hlt : j < j1) (h : j1 % N = j % N) : j + N ≤ j1 := by
  have hdvd : N ∣ j1 - j := (Nat.modEq_iff_dvd' (Nat.le_of_lt hlt)).1 h.symm
  have := Nat.le_of_dvd (by omega) hdvd
  omega

/-- Among the last `N` of `k > N` indices there is one for every element. -/
theorem last_hit (N k i : Nat) (hi : i < N) (hk : N < k) :
    ∃ j, j < k ∧ k ≤ j + N ∧ j % N = i := by
  have hr : (k - N) % N < N := Nat.mod_lt _ (by omega)
  have hd : (i + N - (k - N) % N) % N < N := Nat.mod_lt _ (by omega)
  refine ⟨(k - N) + (i + N - (k - N) % N) % N, by omega, by omega, ?_⟩
  rw [Nat.add_mod_mod]
  have hdecomp := Nat.div_add_mod (k - N) N
  have hsum : (k - N) + (i + N - (k - N) % N) = i + N * ((k - N) / N + 1) := by
    rw [Nat.mul_add, Nat.mul_one]
    omega
  rw [hsum, Nat.add_mul_mod_self_left, Nat.mod_eq_of_lt hi]

theorem value_of_cells {P : Type} (m : Memory P) (q : P) (T : IntegralType) (x : Int)
    (h : m.cells q = some (T, x)) : m.value q = some x := by
  simp [Memory.value, h]

theorem cells_pos_of_value (c : Params) (m : Memory Ptr) (p : Nat) (h : WellFormed c m)
    (hpos : m.value pos = some (p : Int)) :
    p < size_ c ∧ m.cells Ptr.pos_ = some (size_t, (p : Int)) := by
  obtain ⟨q, hq, hc⟩ := h.1
  have hv : m.value pos = some (q : Int) := value_of_cells m _ _ _ hc
  rw [hpos] at hv
  have hpq : p = q := by
    simp only [Option.some.injEq] at hv
    exact_mod_cast hv
  subst hpq
  exact ⟨hq, hc⟩

theorem value_pos_after (c : Params) (m : Memory Ptr) (p : Nat) (v : Int)
    (t : List (Access Ptr)) :
    (Memory.mk (cellsAfter c m p v) t).value pos = some (((p + 1) % size_ c : Nat) : Int) := by
  simp [Memory.value, cellsAfter, pos]

theorem value_elem_after (c : Params) (m : Memory Ptr) (p : Nat) (v : Int)
    (t : List (Access Ptr)) :
    (Memory.mk (cellsAfter c m p v) t).value (Ptr.audio_samples_ (p : Int)) =
      some (sample_type.convert v) := by
  simp [Memory.value, cellsAfter]

theorem value_other_after (c : Params) (m : Memory Ptr) (p : Nat) (v : Int)
    (t : List (Access Ptr)) (i : Int) (hi : i ≠ (p : Int)) :
    (Memory.mk (cellsAfter c m p v) t).value (Ptr.audio_samples_ i) =
      m.value (Ptr.audio_samples_ i) := by
  simp [Memory.value, cellsAfter, hi]

/-- A sequence of pushes on a fresh buffer, read off `pushes_spec`. -/
theorem pushes_new (c : Params) (a : Int → Int) (vs : List Int) (hN : 0 < size_ c) :
    ∃ m1, pushes c (new c a) vs = some m1 ∧ WellFormed c m1 ∧
      m1.value pos = some (((vs.length % size_ c : Nat) : Int)) ∧
      (∀ (j : Nat) (x : Int), vs[j]? = some x → sample_type.representable x →
        (∀ j1, j < j1 → j1 < vs.length → j1 % size_ c ≠ j % size_ c) →
        m1.value (Ptr.audio_samples_ ((j % size_ c : Nat) : Int)) = some x) := by
  obtain ⟨m1, hm1, hwf, hpos, hhit, _⟩ :=
    pushes_spec c vs (new c a) 0 (wellFormed_new c a hN) hN rfl
  refine ⟨m1, hm1, hwf, ?_, ?_⟩
  · rw [Nat.zero_add] at hpos
    exact value_of_cells m1 _ _ _ hpos
  · intro j x hx hrep hlast
    have h1 := hhit j x hx (by simpa using hlast)
    rw [Nat.zero_add, IntegralType.convert_of_representable _ _ hrep] at h1
    exact value_of_cells m1 _ _ _ h1

end AudioSamples

/-! ## Properties of the buffer -/

namespace AudioSamples

/-- C1: for every capacity `size_ > 0` and every sequence of `k` pushes of
arbitrary values on a freshly constructed buffer, all pushes succeed and the
position counter afterwards equals `k mod size_`. -/
theorem pos_after_pushes (c : Params) (a : Int → Int) (vs : List Int) (hN : 0 < size_ c) :
    ∃ m, pushes c (new c a) vs = some m ∧
      m.value pos = some (((vs.length % size_ c : Nat) : Int)) := by
  obtain ⟨m, hm, _, hpos, _⟩ := pushes_new c a vs hN
  exact ⟨m, hm, hpos⟩

theorem pos_after_pushes_witness :
    0 < size_ capacity4 ∧
    ∃ m, pushes capacity4 (new capacity4 (fun _ => 0)) [10, 20, 30, 40, 50] = some m ∧
      m.value pos = some ((([10, 20, 30, 40, 50].length % size_ capacity4 : Nat) : Int)) :=
  ⟨by decide, pos_after_pushes capacity4 (fun _ => 0) [10, 20, 30, 40, 50] (by decide)⟩

/-- C2: when more than `size_` values (each a `sample_type` value) are pushed
on a freshly constructed buffer, every element `i` of the array ends up holding
`v_j` for the largest index `j` of the sequence with `j mod size_ = i`, and
that `j` is among the last `size_` indices, so none of the earlier values
survives. -/
theorem overrun_keeps_last_samples (c : Params) (a : Int → Int) (vs : List Int)
    (hN : 0 < size_ c) (hk : size_ c < vs.length)
    (hv : ∀ v ∈ vs, sample_type.representable v) :
    ∃ m, pushes c (new c a) vs = some m ∧
      ∀ i : Nat, i < size_ c →
        ∃ (j : Nat) (x : Int), vs[j]? = some x ∧ j % size_ c = i ∧
          (∀ j1, j1 < vs.length → j1 % size_ c = i → j1 ≤ j) ∧
          vs.length ≤ j + size_ c ∧
          m.value (Ptr.audio_samples_ (i : Int)) = some x := by
  obtain ⟨m, hm, _, _, hhit⟩ := pushes_new c a vs hN
  refine ⟨m, hm, ?_⟩
  intro i hi
  obtain ⟨j, hjk, hkj, hji⟩ := last_hit (size_ c) vs.length i hi hk
  have hx : vs[j]? = some vs[j] := List.getElem?_eq_getElem hjk
  refine ⟨j, vs[j], hx, hji, ?_, hkj, ?_⟩
  · intro j1 hj1 hj1i
    by_contra hgt
    have := same_elem_far (size_ c) j j1 (by omega) (by rw [hj1i, hji])
    omega
  · have h1 := hhit j vs[j] hx (hv _ (List.getElem_mem hjk)) (by
      intro j1 hlt hj1 heq
      have := same_elem_far (size_ c) j j1 hlt heq
      omega)
    rw [hji] at h1
    exact h1

theorem overrun_keeps_last_samples_witness :
    (0 < size_ capacity4 ∧ size_ capacity4 < [10, 20, 30, 40, 50].length ∧
      ∀ v ∈ [10, 20, 30, 40, 50], sample_type.representable v) ∧
    (∃ m, pushes capacity4 (new capacity4 (fun _ => 0)) [10, 20, 30, 40, 50] = some m ∧
      ∀ i : Nat, i < size_ capacity4 →
        ∃ (j : Nat) (x : Int), [10, 20, 30, 40, 50][j]? = some x ∧ j % size_ capacity4 = i ∧
          (∀ j1, j1 < [10, 20, 30, 40, 50].length → j1 % size_ capacity4 = i → j1 ≤ j) ∧
          [10, 20, 30, 40, 50].length ≤ j + size_ capacity4 ∧
          m.value (Ptr.audio_samples_ (i : Int)) = some x) ∧
    (pushes capacity4 (new capacity4 (fun _ => 0)) [10, 20, 30, 40, 50]).map
        (fun m => (storage capacity4 m, m.value pos)) =
      some ([some 50, some 20, some 30, some 40], some 1) :=
  ⟨⟨by decide, by decide, by decide⟩,
    overrun_keeps_last_samples capacity4 (fun _ => 0) [10, 20, 30, 40, 50]
      (by decide) (by decide) (by decide),
    by decide⟩

/-- C3: when at most `size_` values (each a `sample_type` value) are pushed on
a freshly constructed buffer, element `i` of the array holds `v_i` for every
index `i` of the sequence: the first `k` elements are the pushed values in
insertion order. -/
theorem first_elements_in_order (c : Params) (a : Int → Int) (vs : List Int)
    (hN : 0 < size_ c) (hk : vs.length ≤ size_ c)
    (hv : ∀ v ∈ vs, sample_type.representable v) :
    ∃ m, pushes c (new c a) vs = some m ∧
      ∀ (i : Nat) (x : Int), vs[i]? = some x →
        m.value (Ptr.audio_samples_ (i : Int)) = some x := by
  obtain ⟨m, hm, _, _, hhit⟩ := pushes_new c a vs hN
  refine ⟨m, hm, ?_⟩
  intro i x hx
  have hi : i < vs.length := by
    by_contra hge
    rw [List.getElem?_eq_none (by omega)] at hx
    cases hx
  have h1 := hhit i x hx (hv x (List.getElem?_mem hx)) (by
    intro j1 hlt hj1
    rw [Nat.mod_eq_of_lt (by omega), Nat.mod_eq_of_lt (by omega)]
    omega)
  rw [Nat.mod_eq_of_lt (by omega)] at h1
  exact h1

theorem first_elements_in_order_witness :
    (0 < size_ capacity3 ∧ [1, 2].length ≤ size_ capacity3 ∧
      ∀ v ∈ [1, 2], sample_type.representable v) ∧
    (∃ m, pushes capacity3 (new capacity3 (fun _ => 77)) [1, 2] = some m ∧
      ∀ (i : Nat) (x : Int), [1, 2][i]? = some x →
        m.value (Ptr.audio_samples_ (i : Int)) = some x) ∧
    (pushes capacity3 (new capacity3 (fun _ => 77)) [1, 2]).map
        (fun m => (storage capacity3 m, m.value pos)) =
      some ([some 1, some 2, some 77], some 2) :=
  ⟨⟨by decide, by decide, by decide⟩,
    first_elements_in_order capacity3 (fun _ => 77) [1, 2] (by decide) (by decide) (by decide),
    by decide⟩

end AudioSamples

namespace AudioSamples

/-- C4 as stated fails at `k = size_`: after 4 pushes on a fresh buffer of
capacity 4 the counter has wrapped to 0 and is not 4. -/
theorem pos_after_capacity_pushes_counterexample :
    0 < size_ capacity4 ∧ [10, 20, 30, 40].length ≤ size_ capacity4 ∧
    (pushes capacity4 (new capacity4 (fun _ => 0)) [10, 20, 30, 40]).map
        (fun m => m.value pos) = some (some 0) ∧
    (pushes capacity4 (new capacity4 (fun _ => 0)) [10, 20, 30, 40]).map
        (fun m => m.value pos) ≠ some (some (([10, 20, 30, 40].length : Nat) : Int)) := by
  decide

/-- C4, amended: for every capacity `size_ > 0` and every `k ≤ size_`, after
`k` pushes on a freshly constructed buffer the position counter equals `k`
when `k < size_`, and has wrapped to `0` when `k = size_`. -/
theorem pos_after_at_most_capacity_pushes (c : Params) (a : Int → Int) (vs : List Int)
    (hN : 0 < size_ c) (hk : vs.length ≤ size_ c) :
    ∃ m, pushes c (new c a) vs = some m ∧
      m.value pos = some (if vs.length < size_ c then (vs.length : Int) else 0) := by
  obtain ⟨m, hm, _, hpos, _⟩ := pushes_new c a vs hN
  refine ⟨m, hm, ?_⟩
  rw [hpos]
  by_cases hlt : vs.length < size_ c
  · simp [hlt, Nat.mod_eq_of_lt hlt]
  · have heq : vs.length = size_ c := by omega
    simp [heq]

theorem pos_after_at_most_capacity_pushes_witness :
    (0 < size_ capacity3 ∧ [1, 2].length ≤ size_ capacity3) ∧
    ∃ m, pushes capacity3 (new capacity3 (fun _ => 77)) [1, 2] = some m ∧
      m.value pos =
        some (if [1, 2].length < size_ capacity3 then (([1, 2].length : Nat) : Int) else 0) :=
  ⟨⟨by decide, by decide⟩,
    pos_after_at_most_capacity_pushes capacity3 (fun _ => 77) [1, 2] (by decide) (by decide)⟩

/-- C5: in every state reachable from construction by pushes of either kind,
for every capacity `size_ > 0`, the position counter holds a value `p` with
`0 ≤ p < size_`; in particular every further `push` and `volatile_push`
succeeds and leaves the counter in that range. -/
theorem pos_in_range (c : Params) (m : Memory Ptr) (hN : 0 < size_ c) (hr : Reachable c m) :
    (∃ p : Int, m.value pos = some p ∧ 0 ≤ p ∧ p < (size_ c : Int)) ∧
    (∀ sample, ∃ m1 p1, push c m sample = some m1 ∧
      m1.value pos = some p1 ∧ 0 ≤ p1 ∧ p1 < (size_ c : Int)) ∧
    (∀ sample, ∃ m1 p1, volatile_push c m sample = some m1 ∧
      m1.value pos = some p1 ∧ 0 ≤ p1 ∧ p1 < (size_ c : Int)) := by
  have hwf := wellFormed_of_reachable c m hN hr
  obtain ⟨p, hp, hpos⟩ := hwf.1
  obtain ⟨u, hu⟩ := wellFormed_elem c m p hwf hp
  have hp1 : (p + 1) % size_ c < size_ c := Nat.mod_lt _ hN
  refine ⟨⟨p, value_of_cells m _ _ _ hpos, by omega, by omega⟩, ?_, ?_⟩
  · intro sample
    exact ⟨_, (((p + 1) % size_ c : Nat) : Int), push_eq c m sample p u hp hpos hu,
      value_pos_after c m p sample _, by omega, by omega⟩
  · intro sample
    exact ⟨_, (((p + 1) % size_ c : Nat) : Int), volatile_push_eq c m sample p u hp hpos hu,
      value_pos_after c m p sample _, by omega, by omega⟩

theorem pos_in_range_witness :
    (0 < size_ capacity3 ∧ Reachable capacity3 (new capacity3 (fun _ => 77))) ∧
    ((∃ p : Int, (new capacity3 (fun _ => 77)).value pos = some p ∧
        0 ≤ p ∧ p < (size_ capacity3 : Int)) ∧
      (∀ sample, ∃ m1 p1, push capacity3 (new capacity3 (fun _ => 77)) sample = some m1 ∧
        m1.value pos = some p1 ∧ 0 ≤ p1 ∧ p1 < (size_ capacity3 : Int)) ∧
      (∀ sample, ∃ m1 p1,
        volatile_push capacity3 (new capacity3 (fun _ => 77)) sample = some m1 ∧
        m1.value pos = some p1 ∧ 0 ≤ p1 ∧ p1 < (size_ capacity3 : Int))) :=
  ⟨⟨by decide, Reachable.construct _⟩,
    pos_in_range capacity3 (new capacity3 (fun _ => 77)) (by decide) (Reachable.construct _)⟩

/-- C6: in every state reachable from construction by pushes on a buffer of
capacity `size_ > 0`, the counter `p` is an index of the array, both
`audio_samples_[p]` and `begin() + p` designate a live `sample_type` element,
the modulus `size()` is not zero, and `push` and `volatile_push` both return,
having written the sample to that element. -/
theorem push_no_bounds_failure (c : Params) (m : Memory Ptr) (sample : Int)
    (hN : 0 < size_ c) (hr : Reachable c m) :
    ∃ p : Nat, m.value pos = some (p : Int) ∧ p < size_ c ∧ size c ≠ 0 ∧
      (∃ u, m.cells (Ptr.audio_samples_ (p : Int)) = some (sample_type, u)) ∧
      (∃ u, m.cells (begin.add (p : Int)) = some (sample_type, u)) ∧
      (∃ m1, push c m sample = some m1 ∧
        Access.write false (Ptr.audio_samples_ (p : Int)) (sample_type.convert sample)
          ∈ m1.trace) ∧
      (∃ m1, volatile_push c m sample = some m1 ∧
        Access.write true (begin.add (p : Int)) (sample_type.convert sample) ∈ m1.trace) := by
  have hwf := wellFormed_of_reachable c m hN hr
  obtain ⟨p, hp, hpos⟩ := hwf.1
  obtain ⟨u, hu⟩ := wellFormed_elem c m p hwf hp
  have hb : begin.add (p : Int) = Ptr.audio_samples_ (p : Int) := by simp [begin, Ptr.add]
  refine ⟨p, value_of_cells m _ _ _ hpos, hp, by unfold size; omega, ⟨u, hu⟩,
    ⟨u, by rw [hb]; exact hu⟩, ?_, ?_⟩
  · exact ⟨_, push_eq c m sample p u hp hpos hu, by simp⟩
  · exact ⟨_, volatile_push_eq c m sample p u hp hpos hu, by simp [hb]⟩

end AudioSamples

namespace AudioSamples

theorem push_no_bounds_failure_witness :
    (0 < size_ capacity3 ∧ Reachable capacity3 (new capacity3 (fun _ => 77))) ∧
    ∃ p : Nat, (new capacity3 (fun _ => 77)).value pos = some (p : Int) ∧
      p < size_ capacity3 ∧ size capacity3 ≠ 0 ∧
      (∃ u, (new capacity3 (fun _ => 77)).cells (Ptr.audio_samples_ (p : Int)) =
        some (sample_type, u)) ∧
      (∃ u, (new capacity3 (fun _ => 77)).cells (begin.add (p : Int)) = some (sample_type, u)) ∧
      (∃ m1, push capacity3 (new capacity3 (fun _ => 77)) 5 = some m1 ∧
        Access.write false (Ptr.audio_samples_ (p : Int)) (sample_type.convert 5) ∈ m1.trace) ∧
      (∃ m1, volatile_push capacity3 (new capacity3 (fun _ => 77)) 5 = some m1 ∧
        Access.write true (begin.add (p : Int)) (sample_type.convert 5) ∈ m1.trace) :=
  ⟨⟨by decide, Reachable.construct _⟩,
    push_no_bounds_failure capacity3 (new capacity3 (fun _ => 77)) 5 (by decide)
      (Reachable.construct _)⟩

end AudioSamples

namespace volta

/-- C7: for every supported integral type `T`, every live cell `x` of type
`T` and every value `v` of `T`, `volatile_write(&x, v)` returns and
a following `volatile_read(&x)` returns `v`. -/
theorem volatile_write_read_roundtrip {P : Type} [DecidableEq P] (T : IntegralType)
    (m : Memory P) (x : P) (old v : Int) (hx : m.cells x = some (T, old))
    (hv : T.representable v) :
    ∃ m1, volatile_write T x v m = some m1 ∧
      ∃ m2, volatile_read T x m1 = some (v, m2) := by
  have hw : volatile_write T x v m = some
      { cells := fun q => if q = x then some (T, T.convert v) else m.cells q,
        trace := m.trace ++ [Access.write true x (T.convert v)] } := by
    simp [volatile_write, Memory.store, hx]
  refine ⟨_, hw, ?_⟩
  simp [volatile_read, Memory.load, IntegralType.convert_of_representable T v hv]

theorem volatile_write_read_roundtrip_witness :
    ((Memory.mk (fun _ : Nat => some (IntegralType.sint Width.w8, 0)) []).cells 3 =
        some (IntegralType.sint Width.w8, 0) ∧
      (IntegralType.sint Width.w8).representable (-128)) ∧
    ∃ m1, volatile_write (IntegralType.sint Width.w8) 3 (-128)
        (Memory.mk (fun _ : Nat => some (IntegralType.sint Width.w8, 0)) []) = some m1 ∧
      ∃ m2, volatile_read (IntegralType.sint Width.w8) 3 m1 = some (-128, m2) :=
  ⟨⟨rfl, by decide⟩,
    volatile_write_read_roundtrip (IntegralType.sint Width.w8)
      (Memory.mk (fun _ : Nat => some (IntegralType.sint Width.w8, 0)) []) 3 0 (-128) rfl
      (by decide)⟩

end volta

namespace AudioSamples

/-- C8: on a buffer whose counter is `p < size_`, one `push(sample)` of
a `sample_type` value returns; afterwards element `p` holds `sample`, every
other element holds what it held before (it is not zeroed), and the counter
is `(p + 1) mod size_`. -/
theorem push_frame (c : Params) (m : Memory Ptr) (sample : Int) (p : Nat)
    (hwf : WellFormed c m) (hpos : m.value pos = some (p : Int))
    (hv : sample_type.representable sample) :
    ∃ m1, push c m sample = some m1 ∧
      m1.value (Ptr.audio_samples_ (p : Int)) = some sample ∧
      (∀ i : Int, i ≠ (p : Int) →
        m1.value (Ptr.audio_samples_ i) = m.value (Ptr.audio_samples_ i)) ∧
      m1.value pos = some (((p + 1) % size_ c : Nat) : Int) := by
  obtain ⟨hp, hcell⟩ := cells_pos_of_value c m p hwf hpos
  obtain ⟨u, hu⟩ := wellFormed_elem c m p hwf hp
  refine ⟨_, push_eq c m sample p u hp hcell hu, ?_, ?_, value_pos_after c m p sample _⟩
  · rw [value_elem_after, IntegralType.convert_of_representable _ _ hv]
  · intro i hi
    exact value_other_after c m p sample _ i hi

theorem push_frame_witness :
    (WellFormed capacity3 (new capacity3 (fun _ => 77)) ∧
      (new capacity3 (fun _ => 77)).value pos = some ((0 : Nat) : Int) ∧
      sample_type.representable 1) ∧
    ∃ m1, push capacity3 (new capacity3 (fun _ => 77)) 1 = some m1 ∧
      m1.value (Ptr.audio_samples_ ((0 : Nat) : Int)) = some 1 ∧
      (∀ i : Int, i ≠ ((0 : Nat) : Int) →
        m1.value (Ptr.audio_samples_ i) =
          (new capacity3 (fun _ => 77)).value (Ptr.audio_samples_ i)) ∧
      m1.value pos = some (((0 + 1) % size_ capacity3 : Nat) : Int) :=
  ⟨⟨wellFormed_new capacity3 _ (by decide), rfl, by decide⟩,
    push_frame capacity3 (new capacity3 (fun _ => 77)) 1 0
      (wellFormed_new capacity3 _ (by decide)) rfl (by decide)⟩

/-- C10: on a buffer whose counter is `p < size_`, `volatile_push(sample)` of
a `sample_type` value returns having performed exactly three accesses, all
volatile, in this order: a read of `pos_` yielding `p`, a write of `sample`
to element `p`, a write of `(p + 1) mod size_` to `pos_`. -/
theorem volatile_push_accesses (c : Params) (m : Memory Ptr) (sample : Int) (p : Nat)
    (hwf : WellFormed c m) (hpos : m.value pos = some (p : Int))
    (hv : sample_type.representable sample) :
    ∃ m1, volatile_push c m sample = some m1 ∧
      m1.trace = m.trace ++
        [Access.read true Ptr.pos_ (p : Int),
         Access.write true (Ptr.audio_samples_ (p : Int)) sample,
         Access.write true Ptr.pos_ (((p + 1) % size_ c : Nat) : Int)] := by
  obtain ⟨hp, hcell⟩ := cells_pos_of_value c m p hwf hpos
  obtain ⟨u, hu⟩ := wellFormed_elem c m p hwf hp
  refine ⟨_, volatile_push_eq c m sample p u hp hcell hu, ?_⟩
  rw [IntegralType.convert_of_representable _ _ hv]

theorem volatile_push_accesses_witness :
    (WellFormed capacity3 (new capacity3 (fun _ => 77)) ∧
      (new capacity3 (fun _ => 77)).value pos = some ((0 : Nat) : Int) ∧
      sample_type.representable 9) ∧
    ∃ m1, volatile_push capacity3 (new capacity3 (fun _ => 77)) 9 = some m1 ∧
      m1.trace = (new capacity3 (fun _ => 77)).trace ++
        [Access.read true Ptr.pos_ ((0 : Nat) : Int),
         Access.write true (Ptr.audio_samples_ ((0 : Nat) : Int)) 9,
         Access.write true Ptr.pos_ (((0 + 1) % size_ capacity3 : Nat) : Int)] :=
  ⟨⟨wellFormed_new capacity3 _ (by decide), rfl, by decide⟩,
    volatile_push_accesses capacity3 (new capacity3 (fun _ => 77)) 9 0
      (wellFormed_new capacity3 _ (by decide)) rfl (by decide)⟩

end AudioSamples

theorem AudioSampleISR_Manual_eq (g : Memory Ptr) (sample : Int) :
    AudioSampleISR_Manual g sample = AudioSamples.volatile_push samples g sample := by
  have h1 : AudioSamples.size_t.convert 1 = 1 := by decide
  simp only [AudioSampleISR_Manual, AudioSamples.volatile_push, AudioSamples.pos, h1]

/-- C9: for every state of the global buffer `samples` with counter below
its capacity and every sample, `AudioSampleISR_Auto` and
`AudioSampleISR_Manual` both return and leave the same final state: the same
cells (array content and counter) and the same sequence of accesses. -/
theorem isr_manual_equiv_auto (g : Memory Ptr) (sample : Int)
    (hwf : AudioSamples.WellFormed samples g) :
    ∃ g1, AudioSampleISR_Auto g sample = some g1 ∧
      AudioSampleISR_Manual g sample = some g1 := by
  obtain ⟨p, hp, hpos⟩ := hwf.1
  obtain ⟨u, hu⟩ := AudioSamples.wellFormed_elem samples g p hwf hp
  have h := AudioSamples.volatile_push_eq samples g sample p u hp hpos hu
  exact ⟨_, h, by rw [AudioSampleISR_Manual_eq, h]⟩

theorem isr_manual_equiv_auto_witness :
    AudioSamples.WellFormed samples (AudioSamples.new samples (fun _ => 0)) ∧
    ∃ g1, AudioSampleISR_Auto (AudioSamples.new samples (fun _ => 0)) 5 = some g1 ∧
      AudioSampleISR_Manual (AudioSamples.new samples (fun _ => 0)) 5 = some g1 :=
  ⟨AudioSamples.wellFormed_new samples _ (by decide),
    isr_manual_equiv_auto (AudioSamples.new samples (fun _ => 0)) 5
      (AudioSamples.wellFormed_new samples _ (by decide))⟩

/-! ## Sequences mixing both kinds of push -/

namespace AudioSamples

theorem cellsAfter_congr (c : Params) (m n : Memory Ptr) (p : Nat) (v : Int)
    (h : m.cells = n.cells) : cellsAfter c m p v = cellsAfter c n p v := by
  unfold cellsAfter
  rw [h]

theorem wellFormed_congr (c : Params) (m n : Memory Ptr) (h : m.cells = n.cells)
    (hwf : WellFormed c m) : WellFormed c n := by
  unfold WellFormed at hwf ⊢
  rw [← h]
  exact hwf

/-- Storing into element `p` and the counter changes no cell type and makes
no cell live or dead. -/
theorem cellsAfter_type (c : Params) (m : Memory Ptr) (p : Nat) (v : Int)
    (hwf : WellFormed c m) (hp : p < size_ c) (q : Ptr) :
    (cellsAfter c m p v q).map Prod.fst = (m.cells q).map Prod.fst := by
  obtain ⟨p0, _, hpos⟩ := hwf.1
  obtain ⟨u, hu⟩ := wellFormed_elem c m p hwf hp
  unfold cellsAfter
  by_cases h1 : q = Ptr.pos_
  · subst h1
    simp [hpos]
  · by_cases h2 : q = Ptr.audio_samples_ (p : Int)
    · subst h2
      simp [hu]
    · simp [h1, h2]

/-- One push of either kind, as a function of the cells only. -/
theorem either_push_cells (c : Params) (m : Memory Ptr) (isVolatile : Bool) (v : Int) (p : Nat)
    (hwf : WellFormed c m) (hp : p < size_ c)
    (hpos : m.cells Ptr.pos_ = some (size_t, (p : Int))) :
    ∃ m1, (if isVolatile then volatile_push c m v else push c m v) = some m1 ∧
      m1.cells = cellsAfter c m p v := by
  obtain ⟨u, hu⟩ := wellFormed_elem c m p hwf hp
  cases isVolatile with
  | true => exact ⟨_, by simpa using volatile_push_eq c m v p u hp hpos hu, rfl⟩
  | false => exact ⟨_, by simpa using push_eq c m v p u hp hpos hu, rfl⟩

/-- A mixed sequence of pushes returns, and ends in the same cells as the
sequence of ordinary pushes of the same values; it keeps the buffer
well-formed and the type and liveness of every cell. -/
theorem mixedPushes_spec (c : Params) (ops : List (Bool × Int)) :
    ∀ (m n : Memory Ptr), WellFormed c m → m.cells = n.cells →
      ∃ m1 n1, mixedPushes c m ops = some m1 ∧
        pushes c n (ops.map Prod.snd) = some n1 ∧ m1.cells = n1.cells ∧
        WellFormed c m1 ∧
        ∀ q, (m1.cells q).map Prod.fst = (m.cells q).map Prod.fst := by
  induction ops with
  | nil =>
    intro m n hwf h
    exact ⟨m, n, rfl, rfl, h, hwf, fun _ => rfl⟩
  | cons op ops ih =>
    intro m n hwf h
    obtain ⟨isVolatile, v⟩ := op
    obtain ⟨p, hp, hpos⟩ := hwf.1
    have hwfn := wellFormed_congr c m n h hwf
    obtain ⟨u, hu⟩ := wellFormed_elem c n p hwfn hp
    obtain ⟨m1, hm1, hc1⟩ := either_push_cells c m isVolatile v p hwf hp hpos
    obtain ⟨n1, hn1, hd1⟩ : ∃ n1, push c n v = some n1 ∧ n1.cells = cellsAfter c n p v :=
      ⟨_, push_eq c n v p u hp (by rw [← h]; exact hpos) hu, rfl⟩
    have hwf1 : WellFormed c m1 :=
      wellFormed_congr c ⟨cellsAfter c m p v, []⟩ m1 hc1.symm
        (wellFormed_after c m p v [] hwf hp)
    obtain ⟨m2, n2, hm2, hn2, hc2, hwf2, hty⟩ :=
      ih m1 n1 hwf1 (by rw [hc1, hd1]; exact cellsAfter_congr c m n p v h)
    refine ⟨m2, n2, ?_, ?_, hc2, hwf2, ?_⟩
    · simp only [mixedPushes, hm1]
      exact hm2
    · simp only [List.map_cons, pushes, hn1]
      exact hn2
    · intro q
      rw [hty q, hc1]
      exact cellsAfter_type c m p v hwf hp q

end AudioSamples

namespace AudioSamples

/-- C11: the range exposed by `begin()` and `end()` is fixed.  Both are
determined by the configuration alone (no push can change them), `end()` is
`begin() + size_`, and after every sequence of pushes of either kind on
a well-formed buffer every cell is live exactly when it was before, with the
same type, and the live elements are exactly `begin() + i` for
`0 ≤ i < size_`: the array is never resized. -/
theorem begin_end_fixed (c : Params) (m : Memory Ptr) (ops : List (Bool × Int))
    (hwf : WellFormed c m) :
    end_ c = begin.add (size_ c : Int) ∧
    ∃ m1, mixedPushes c m ops = some m1 ∧
      (∀ q, (m1.cells q).map Prod.fst = (m.cells q).map Prod.fst) ∧
      (∀ i : Int, (∃ u, m1.cells (begin.add i) = some (sample_type, u)) ↔
        (0 ≤ i ∧ i < (size_ c : Int))) := by
  refine ⟨by simp [end_, begin, Ptr.add], ?_⟩
  obtain ⟨m1, _, hm1, _, _, hwf1, hty⟩ := mixedPushes_spec c ops m m hwf rfl
  refine ⟨m1, hm1, hty, ?_⟩
  intro i
  have hb : begin.add i = Ptr.audio_samples_ i := by simp [begin, Ptr.add]
  rw [hb]
  constructor
  · rintro ⟨u, hu⟩
    by_contra hi
    rw [hwf1.2.2 i hi] at hu
    cases hu
  · rintro ⟨h0, h1⟩
    exact hwf1.2.1 i h0 h1

theorem begin_end_fixed_witness :
    WellFormed capacity3 (new capacity3 (fun _ => 77)) ∧
    (end_ capacity3 = begin.add (size_ capacity3 : Int) ∧
      ∃ m1, mixedPushes capacity3 (new capacity3 (fun _ => 77))
          [(true, 1), (false, 2), (true, 3), (false, 4)] = some m1 ∧
        (∀ q, (m1.cells q).map Prod.fst =
          ((new capacity3 (fun _ => 77)).cells q).map Prod.fst) ∧
        (∀ i : Int, (∃ u, m1.cells (begin.add i) = some (sample_type, u)) ↔
          (0 ≤ i ∧ i < (size_ capacity3 : Int)))) :=
  ⟨wellFormed_new capacity3 _ (by decide),
    begin_end_fixed capacity3 (new capacity3 (fun _ => 77))
      [(true, 1), (false, 2), (true, 3), (false, 4)] (wellFormed_new capacity3 _ (by decide))⟩

/-- C12 as stated fails when the product of the parameters does not fit
`size_t`: for `AudioSamples<2 ^ 62 + 1, 4, 1>` the product is `2 ^ 64 + 4`
and `size()` is `4`. -/
theorem size_overflow_counterexample :
    overflowing.Duration * overflowing.SampleRate * overflowing.Channels = 2 ^ 64 + 4 ∧
    size overflowing = 4 ∧
    size overflowing ≠
      overflowing.Duration * overflowing.SampleRate * overflowing.Channels := by
  decide

/-- C12, amended: for every instantiation, overflowing or not, `size()` is
the product `Duration × SampleRate × Channels` reduced modulo `2 ^ 64`, which
is the product itself whenever the product is below `2 ^ 64`; `duration()`,
`sample_rate()` and `channels()` return `Duration`, `SampleRate` and
`Channels`; for the default configuration `(200, 16, 1)` the capacity is
`3200`. -/
theorem size_eq_product (c : Params) :
    size c = (c.Duration * c.SampleRate * c.Channels) % 2 ^ 64 ∧
    (c.Duration * c.SampleRate * c.Channels < 2 ^ 64 →
      size c = c.Duration * c.SampleRate * c.Channels) ∧
    duration c = c.Duration ∧ sample_rate c = c.SampleRate ∧ channels c = c.Channels ∧
    (samples.Duration = 200 ∧ samples.SampleRate = 16 ∧ samples.Channels = 1 ∧
      size samples = 3200) := by
  have hcomm : c.SampleRate * c.Duration * c.Channels =
      c.Duration * c.SampleRate * c.Channels := by
    rw [Nat.mul_comm c.SampleRate c.Duration]
  refine ⟨?_, ?_, rfl, rfl, rfl, rfl, rfl, rfl, by decide⟩
  · simp only [size, size_, hcomm]
  · intro h
    simp only [size, size_, hcomm]
    exact Nat.mod_eq_of_lt h

theorem size_eq_product_witness :
    capacity4.Duration * capacity4.SampleRate * capacity4.Channels < 2 ^ 64 ∧
    size capacity4 = capacity4.Duration * capacity4.SampleRate * capacity4.Channels ∧
    size capacity4 = 4 ∧
    size overflowing =
      (overflowing.Duration * overflowing.SampleRate * overflowing.Channels) % 2 ^ 64 ∧
    (overflowing.Duration * overflowing.SampleRate * overflowing.Channels) % 2 ^ 64 = 4 :=
  ⟨by decide, (size_eq_product capacity4).2.1 (by decide), by decide,
    (size_eq_product overflowing).1, by decide⟩

/-- C13: the accessors do not mutate the buffer.  `sample_rate`, `channels`,
`duration`, `size`, `begin`, `end` and `pos` are determined by the
configuration alone and access no cell; `volatile_pos()` on a well-formed
buffer returns after one read that leaves every cell (the counter and every
array element) as it was; and the value it returns is the value read through
the reference returned by `pos()`, which is the value of the counter. -/
theorem accessors_keep_state (c : Params) (m : Memory Ptr) (hwf : WellFormed c m) :
    ∃ p m1 m2, volatile_pos m = some (p, m1) ∧ m.load false size_t pos = some (p, m2) ∧
      m1.cells = m.cells ∧ m2.cells = m.cells ∧ m.value pos = some p ∧
      m1.trace = m.trace ++ [Access.read true pos p] := by
  obtain ⟨p, _, hpos⟩ := hwf.1
  refine ⟨(p : Int), ⟨m.cells, m.trace ++ [Access.read true Ptr.pos_ (p : Int)]⟩,
    ⟨m.cells, m.trace ++ [Access.read false Ptr.pos_ (p : Int)]⟩, ?_, ?_, rfl, rfl,
    value_of_cells m _ _ _ hpos, rfl⟩
  · simp [volatile_pos, volatile_read, Memory.load, hpos]
  · simp [pos, Memory.load, hpos]

theorem accessors_keep_state_witness :
    WellFormed capacity3 (new capacity3 (fun _ => 77)) ∧
    ∃ p m1 m2, volatile_pos (new capacity3 (fun _ => 77)) = some (p, m1) ∧
      (new capacity3 (fun _ => 77)).load false size_t pos = some (p, m2) ∧
      m1.cells = (new capacity3 (fun _ => 77)).cells ∧
      m2.cells = (new capacity3 (fun _ => 77)).cells ∧
      (new capacity3 (fun _ => 77)).value pos = some p ∧
      m1.trace = (new capacity3 (fun _ => 77)).trace ++ [Access.read true pos p] :=
  ⟨wellFormed_new capacity3 _ (by decide),
    accessors_keep_state capacity3 (new capacity3 (fun _ => 77))
      (wellFormed_new capacity3 _ (by decide))⟩

/-- C15: on every buffer whose counter is below its capacity, `push(sample)`
and `volatile_push(sample)` both return and end in the same cells (same
array content, same counter); hence every sequence of pushes mixing the two
kinds returns and ends in the same cells as the sequence of ordinary pushes
of the same values. -/
theorem push_equiv_volatile_push (c : Params) (m : Memory Ptr) (sample : Int)
    (ops : List (Bool × Int)) (hwf : WellFormed c m) :
    (∃ m1 m2, push c m sample = some m1 ∧ volatile_push c m sample = some m2 ∧
      m1.cells = m2.cells) ∧
    (∃ m3 m4, mixedPushes c m ops = some m3 ∧
      pushes c m (ops.map Prod.snd) = some m4 ∧ m3.cells = m4.cells) := by
  obtain ⟨p, hp, hpos⟩ := hwf.1
  obtain ⟨u, hu⟩ := wellFormed_elem c m p hwf hp
  refine ⟨⟨_, _, push_eq c m sample p u hp hpos hu,
    volatile_push_eq c m sample p u hp hpos hu, rfl⟩, ?_⟩
  obtain ⟨m3, m4, hm3, hm4, hc, _, _⟩ := mixedPushes_spec c ops m m hwf rfl
  exact ⟨m3, m4, hm3, hm4, hc⟩

theorem push_equiv_volatile_push_witness :
    WellFormed capacity3 (new capacity3 (fun _ => 77)) ∧
    ((∃ m1 m2, push capacity3 (new capacity3 (fun _ => 77)) 5 = some m1 ∧
        volatile_push capacity3 (new capacity3 (fun _ => 77)) 5 = some m2 ∧
        m1.cells = m2.cells) ∧
      (∃ m3 m4, mixedPushes capacity3 (new capacity3 (fun _ => 77))
          [(true, 1), (false, 2), (true, 3), (false, 4)] = some m3 ∧
        pushes capacity3 (new capacity3 (fun _ => 77))
          ([(true, 1), (false, 2), (true, 3), (false, 4)].map Prod.snd) = some m4 ∧
        m3.cells = m4.cells)) :=
  ⟨wellFormed_new capacity3 _ (by decide),
    push_equiv_volatile_push capacity3 (new capacity3 (fun _ => 77)) 5
      [(true, 1), (false, 2), (true, 3), (false, 4)] (wellFormed_new capacity3 _ (by decide))⟩

end AudioSamples

/-! ## The consumer pass of `main` -/

/-- The loop of `main` started at element `k` with enough fuel returns, has
read the elements `k .. size_ - 1` in increasing order, has passed each to
`ProcessMonoFrame`, and has changed no cell. -/
theorem main_loop_spec (c : Params) (fuel : Nat) :
    ∀ (k : Nat) (m : Memory Ptr) (calls : List Int),
      k ≤ AudioSamples.size_ c → AudioSamples.size_ c - k < fuel →
      (∀ i : Int, 0 ≤ i → i < (AudioSamples.size_ c : Int) →
        ∃ v, m.cells (Ptr.audio_samples_ i) = some (AudioSamples.sample_type, v)) →
      ∃ fs m1, main_loop c fuel (Ptr.audio_samples_ (k : Int)) m calls = some (calls ++ fs, m1) ∧
        m1.cells = m.cells ∧
        fs.map some = (List.range' k (AudioSamples.size_ c - k)).map
          (fun (j : Nat) => m.value (Ptr.audio_samples_ (j : Int))) := by
  induction fuel with
  | zero =>
    intro k m calls _ hfuel _
    omega
  | succ fuel ih =>
    intro k m calls hk hfuel hlive
    by_cases hlt : k < AudioSamples.size_ c
    · obtain ⟨v, hv⟩ := hlive (k : Int) (by omega) (by omega)
      have hcond : (Ptr.audio_samples_ (k : Int)).lt (AudioSamples.end_ c) = true := by
        simp [Ptr.lt, AudioSamples.end_, hlt]
      have hnext : (Ptr.audio_samples_ (k : Int)).add 1 = Ptr.audio_samples_ ((k + 1 : Nat) : Int) := by
        simp [Ptr.add]
      obtain ⟨fs, m1, hrun, hcells, hfs⟩ :=
        ih (k + 1) ⟨m.cells, m.trace ++ [Access.read true (Ptr.audio_samples_ (k : Int)) v]⟩
          (calls ++ [v]) (by omega) (by omega) hlive
      refine ⟨v :: fs, m1, ?_, hcells, ?_⟩
      · simp only [main_loop, hcond, if_true, volatile_read, Memory.load, hv, hnext,
          ProcessMonoFrame]
        rw [hrun]
        simp
      · have hsplit : AudioSamples.size_ c - k = (AudioSamples.size_ c - (k + 1)) + 1 := by omega
        rw [hsplit, List.range'_succ, List.map_cons, List.map_cons, hfs]
        simp [Memory.value, hv]
    · have hkeq : k = AudioSamples.size_ c := by omega
      have hcond : (Ptr.audio_samples_ (k : Int)).lt (AudioSamples.end_ c) = false := by
        simp [Ptr.lt, AudioSamples.end_, hkeq]
      refine ⟨[], m, ?_, rfl, ?_⟩
      · simp [main_loop, hcond]
      · simp [hkeq]

/-- C14: one consumer pass over a buffer whose array elements are live,
whatever the counter, returns (for every bound above `size_` on the number of
loop tests) after invoking `ProcessMonoFrame` exactly `size_` times, the
`i`-th invocation receiving the content of element `i` in increasing index
order, and leaves every cell (array and counter) unchanged. -/
theorem main_pass_scans_whole_range (c : Params) (m : Memory Ptr) (fuel : Nat)
    (hlive : ∀ i : Int, 0 ≤ i → i < (AudioSamples.size_ c : Int) →
      ∃ v, m.cells (Ptr.audio_samples_ i) = some (AudioSamples.sample_type, v))
    (hfuel : AudioSamples.size_ c < fuel) :
    ∃ frames m1, main_pass c fuel m = some (frames, m1) ∧
      frames.length = AudioSamples.size_ c ∧
      frames.map some = AudioSamples.storage c m ∧
      m1.cells = m.cells := by
  obtain ⟨fs, m1, hrun, hcells, hfs⟩ :=
    main_loop_spec c fuel 0 m [] (Nat.zero_le _) (by omega) hlive
  have hfs2 : fs.map some = AudioSamples.storage c m := by
    rw [hfs, Nat.sub_zero, AudioSamples.storage, List.range_eq_range']
  refine ⟨fs, m1, ?_, ?_, hfs2, hcells⟩
  · simpa [main_pass, AudioSamples.begin] using hrun
  · have hlen := congrArg List.length hfs2
    simpa [AudioSamples.storage] using hlen

theorem main_pass_scans_whole_range_witness :
    ((∀ i : Int, 0 ≤ i → i < (AudioSamples.size_ AudioSamples.capacity3 : Int) →
        ∃ v, (AudioSamples.new AudioSamples.capacity3 (fun i => 70 + i)).cells
          (Ptr.audio_samples_ i) = some (AudioSamples.sample_type, v)) ∧
      AudioSamples.size_ AudioSamples.capacity3 < 4) ∧
    (∃ frames m1,
      main_pass AudioSamples.capacity3 4
        (AudioSamples.new AudioSamples.capacity3 (fun i => 70 + i)) = some (frames, m1) ∧
      frames.length = AudioSamples.size_ AudioSamples.capacity3 ∧
      frames.map some = AudioSamples.storage AudioSamples.capacity3
        (AudioSamples.new AudioSamples.capacity3 (fun i => 70 + i)) ∧
      m1.cells = (AudioSamples.new AudioSamples.capacity3 (fun i => 70 + i)).cells) ∧
    (main_pass AudioSamples.capacity3 4
        (AudioSamples.new AudioSamples.capacity3 (fun i => 70 + i))).map Prod.fst =
      some [70, 71, 72] :=
  ⟨⟨(AudioSamples.wellFormed_new AudioSamples.capacity3 _ (by decide)).2.1, by decide⟩,
    main_pass_scans_whole_range AudioSamples.capacity3
      (AudioSamples.new AudioSamples.capacity3 (fun i => 70 + i)) 4
      (AudioSamples.wellFormed_new AudioSamples.capacity3 _ (by decide)).2.1 (by decide),
    by decide⟩

/-! ## A full cycle, and the counter in machine arithmetic -/

namespace AudioSamples

/-- Every element is hit by exactly one of `N` consecutive positions. -/
theorem cycle_index (N p i : Nat) (hp : p < N) (hi : i < N) :
    ∃ j, j < N ∧ (p + j) % N = i ∧ ∀ j2, j2 < N → (p + j2) % N = i → j2 = j := by
  have hj : (i + N - p) % N < N := Nat.mod_lt _ (by omega)
  have hmod : (p + (i + N - p) % N) % N = i := by
    rw [Nat.add_mod_mod]
    have hsum : p + (i + N - p) = i + N := by omega
    rw [hsum, Nat.add_mod_right, Nat.mod_eq_of_lt hi]
  refine ⟨(i + N - p) % N, hj, hmod, ?_⟩
  intro j2 hj2 h2
  rcases Nat.lt_trichotomy j2 ((i + N - p) % N) with hlt | heq | hgt
  · have := same_elem_far N (p + j2) (p + (i + N - p) % N) (by omega) (by rw [hmod, h2])
    omega
  · exact heq
  · have := same_elem_far N (p + (i + N - p) % N) (p + j2) (by omega) (by rw [hmod, h2])
    omega

/-- C16: on a buffer whose counter is `p < size_`, `size_` consecutive
pushes (of either kind, of `sample_type` values `v_0 .. v_{size_ - 1}`)
return with the counter again `p` and with element `(p + j) mod size_`
holding `v_j` for every `j`; every element is hit by exactly one `j`, so it
holds a pushed value and no initial content survives. -/
theorem full_cycle (c : Params) (m : Memory Ptr) (ops : List (Bool × Int)) (p : Nat)
    (hwf : WellFormed c m) (hpos : m.value pos = some (p : Int))
    (hlen : ops.length = size_ c)
    (hv : ∀ op ∈ ops, sample_type.representable op.2) :
    ∃ m1, mixedPushes c m ops = some m1 ∧ m1.value pos = some (p : Int) ∧
      (∀ (j : Nat) (x : Int), (ops.map Prod.snd)[j]? = some x →
        m1.value (Ptr.audio_samples_ (((p + j) % size_ c : Nat) : Int)) = some x) ∧
      (∀ i : Nat, i < size_ c →
        ∃ (j : Nat) (x : Int), (ops.map Prod.snd)[j]? = some x ∧ (p + j) % size_ c = i ∧
          (∀ j2, j2 < size_ c → (p + j2) % size_ c = i → j2 = j) ∧
          m1.value (Ptr.audio_samples_ (i : Int)) = some x) := by
  obtain ⟨hp, hcell⟩ := cells_pos_of_value c m p hwf hpos
  obtain ⟨m1, n1, hm1, hn1, hc, _, _⟩ := mixedPushes_spec c ops m m hwf rfl
  obtain ⟨n2, hn2, _, hpos2, hhit, _⟩ :=
    pushes_spec c (ops.map Prod.snd) m p hwf hp hcell
  rw [hn1] at hn2
  cases hn2
  have hlen2 : (ops.map Prod.snd).length = size_ c := by simpa using hlen
  have hslot : ∀ (j : Nat) (x : Int), (ops.map Prod.snd)[j]? = some x →
      m1.value (Ptr.audio_samples_ (((p + j) % size_ c : Nat) : Int)) = some x := by
    intro j x hx
    have hrep : sample_type.representable x := by
      obtain ⟨op, hop, rfl⟩ := List.mem_map.1 (List.getElem?_mem hx)
      exact hv op hop
    have h1 := hhit j x hx (by
      intro j1 hlt hj1 heq
      have := same_elem_far (size_ c) (p + j) (p + j1) (by omega) heq
      omega)
    rw [IntegralType.convert_of_representable _ _ hrep, ← hc] at h1
    exact value_of_cells m1 _ _ _ h1
  refine ⟨m1, hm1, ?_, hslot, ?_⟩
  · rw [hlen2, Nat.add_mod_right, Nat.mod_eq_of_lt hp, ← hc] at hpos2
    exact value_of_cells m1 _ _ _ hpos2
  · intro i hi
    obtain ⟨j, hj, hji, huniq⟩ := cycle_index (size_ c) p i hp hi
    have hx : (ops.map Prod.snd)[j]? = some (ops.map Prod.snd)[j] :=
      List.getElem?_eq_getElem (by omega)
    refine ⟨j, _, hx, hji, huniq, ?_⟩
    have h1 := hslot j _ hx
    rw [hji] at h1
    exact h1

theorem full_cycle_witness :
    (WellFormed capacity3 (new capacity3 (fun _ => 77)) ∧
      (new capacity3 (fun _ => 77)).value pos = some ((0 : Nat) : Int) ∧
      [(true, (1 : Int)), (false, 2), (true, 3)].length = size_ capacity3 ∧
      ∀ op ∈ [(true, (1 : Int)), (false, 2), (true, 3)], sample_type.representable op.2) ∧
    ∃ m1, mixedPushes capacity3 (new capacity3 (fun _ => 77))
        [(true, 1), (false, 2), (true, 3)] = some m1 ∧
      m1.value pos = some ((0 : Nat) : Int) ∧
      (∀ (j : Nat) (x : Int),
        ([(true, (1 : Int)), (false, 2), (true, 3)].map Prod.snd)[j]? = some x →
        m1.value (Ptr.audio_samples_ (((0 + j) % size_ capacity3 : Nat) : Int)) = some x) ∧
      (∀ i : Nat, i < size_ capacity3 →
        ∃ (j : Nat) (x : Int),
          ([(true, (1 : Int)), (false, 2), (true, 3)].map Prod.snd)[j]? = some x ∧
          (0 + j) % size_ capacity3 = i ∧
          (∀ j2, j2 < size_ capacity3 → (0 + j2) % size_ capacity3 = i → j2 = j) ∧
          m1.value (Ptr.audio_samples_ (i : Int)) = some x) :=
  ⟨⟨wellFormed_new capacity3 _ (by decide), rfl, by decide, by decide⟩,
    full_cycle capacity3 (new capacity3 (fun _ => 77)) [(true, 1), (false, 2), (true, 3)] 0
      (wellFormed_new capacity3 _ (by decide)) rfl (by decide) (by decide)⟩

/-- C17: with `size_t` arithmetic modulo `2 ^ 64`, for every capacity
`0 < size_ < 2 ^ 64`: for every `p < size_` the addition `p + 1` does not
wrap and the computed counter is the mathematical `(p + 1) mod size_`; for
every 64-bit `p` whatsoever the computed counter is below `size_`; and the
computed counter is what `push` and `volatile_push` store in `pos_`. -/
theorem advance_exact (c : Params) (hN : 0 < size_ c) :
    size_ c < 2 ^ 64 ∧
    (∀ p : Nat, p < size_ c →
      ((p : Int) + 1) % 2 ^ 64 = (p : Int) + 1 ∧
      advance c (p : Int) = (((p + 1) % size_ c : Nat) : Int)) ∧
    (∀ p : Int, 0 ≤ p → p < 2 ^ 64 → 0 ≤ advance c p ∧ advance c p < (size_ c : Int)) ∧
    (∀ (m : Memory Ptr) (sample : Int) (p : Nat), WellFormed c m →
      m.value pos = some (p : Int) →
      ∃ m1 m2, push c m sample = some m1 ∧ volatile_push c m sample = some m2 ∧
        m1.value pos = some (advance c (p : Int)) ∧
        m2.value pos = some (advance c (p : Int))) := by
  have hlt := size__lt c
  have hpos : (0 : Int) < (size c : Int) := by
    unfold size
    omega
  refine ⟨hlt, ?_, ?_, ?_⟩
  · intro p hp
    exact ⟨Int.emod_eq_of_lt (by omega) (by omega), advance_eq c p hp⟩
  · intro p _ _
    exact ⟨Int.emod_nonneg _ (by omega), Int.emod_lt_of_pos _ hpos⟩
  · intro m sample p hwf hval
    obtain ⟨hp, hcell⟩ := cells_pos_of_value c m p hwf hval
    obtain ⟨u, hu⟩ := wellFormed_elem c m p hwf hp
    have hadv : advance c (p : Int) = (((p + 1) % size_ c : Nat) : Int) := advance_eq c p hp
    refine ⟨_, _, push_eq c m sample p u hp hcell hu,
      volatile_push_eq c m sample p u hp hcell hu, ?_, ?_⟩
    · rw [hadv]
      exact value_pos_after c m p sample _
    · rw [hadv]
      exact value_pos_after c m p sample _

theorem advance_exact_witness :
    0 < size_ capacity3 ∧
    (size_ capacity3 < 2 ^ 64 ∧
      (∀ p : Nat, p < size_ capacity3 →
        ((p : Int) + 1) % 2 ^ 64 = (p : Int) + 1 ∧
        advance capacity3 (p : Int) = (((p + 1) % size_ capacity3 : Nat) : Int)) ∧
      (∀ p : Int, 0 ≤ p → p < 2 ^ 64 →
        0 ≤ advance capacity3 p ∧ advance capacity3 p < (size_ capacity3 : Int)) ∧
      (∀ (m : Memory Ptr) (sample : Int) (p : Nat), WellFormed capacity3 m →
        m.value pos = some (p : Int) →
        ∃ m1 m2, push capacity3 m sample = some m1 ∧
          volatile_push capacity3 m sample = some m2 ∧
          m1.value pos = some (advance capacity3 (p : Int)) ∧
          m2.value pos = some (advance capacity3 (p : Int)))) ∧
    advance capacity3 (2 ^ 64 - 1) = 0 ∧ advance capacity3 999 = 1 :=
  ⟨by decide, advance_exact capacity3 (by decide), by decide, by decide⟩

/-- C18 as stated fails: for `AudioSamples<2 ^ 32, 2 ^ 32, 1>` all three
parameters are non-zero `size_t` values, yet `size_` computed modulo
`2 ^ 64` is `0`; the array has no element and a push is undefined. -/
theorem size_zero_counterexample :
    wrapsToZero.Duration ≠ 0 ∧ wrapsToZero.SampleRate ≠ 0 ∧ wrapsToZero.Channels ≠ 0 ∧
    wrapsToZero.Duration < 2 ^ 64 ∧ wrapsToZero.SampleRate < 2 ^ 64 ∧
    wrapsToZero.Channels < 2 ^ 64 ∧
    size_ wrapsToZero = 0 ∧
    (push wrapsToZero (new wrapsToZero (fun _ => 0)) 5).isNone = true ∧
    (volatile_push wrapsToZero (new wrapsToZero (fun _ => 0)) 5).isNone = true := by
  decide

/-- C18, amended: for every `Duration`, `SampleRate` and `Channels` that are
all non-zero and whose product is not a multiple of `2 ^ 64` (in particular
whenever the product is below `2 ^ 64`), `size_` computed modulo `2 ^ 64` is
non-zero, so the modulus in `push` and `volatile_push` is not zero and the
array has at least one element. -/
theorem size_ne_zero (c : Params) (a : Int → Int)
    (hD : c.Duration ≠ 0) (hS : c.SampleRate ≠ 0) (hC : c.Channels ≠ 0)
    (h : ¬ 2 ^ 64 ∣ c.SampleRate * c.Duration * c.Channels) :
    c.SampleRate * c.Duration * c.Channels ≠ 0 ∧
    size_ c ≠ 0 ∧ size c ≠ 0 ∧
    ∃ u, (new c a).cells begin = some (sample_type, u) := by
  have hprod : c.SampleRate * c.Duration * c.Channels ≠ 0 :=
    Nat.mul_ne_zero (Nat.mul_ne_zero hS hD) hC
  have hne : size_ c ≠ 0 := by
    intro h0
    exact h (Nat.dvd_of_mod_eq_zero h0)
  refine ⟨hprod, hne, hne, sample_type.convert (a 0), ?_⟩
  have hpos : (0 : Int) < (size_ c : Int) := by omega
  simp [new, begin, hpos]

theorem size_ne_zero_witness :
    (overflowing.Duration ≠ 0 ∧ overflowing.SampleRate ≠ 0 ∧ overflowing.Channels ≠ 0 ∧
      ¬ 2 ^ 64 ∣ overflowing.SampleRate * overflowing.Duration * overflowing.Channels) ∧
    (overflowing.SampleRate * overflowing.Duration * overflowing.Channels ≠ 0 ∧
      size_ overflowing ≠ 0 ∧ size overflowing ≠ 0 ∧
      ∃ u, (new overflowing (fun _ => 0)).cells begin = some (sample_type, u)) :=
  ⟨⟨by decide, by decide, by decide, by decide⟩,
    size_ne_zero overflowing (fun _ => 0) (by decide) (by decide) (by decide) (by decide)⟩

end AudioSamples
